import Mathlib

/-!
Verification development for the profileNJ polytomy-resolution core.

The repository ships only its `setup.py` under `src/`; the core components
(Tree Model, LCA Mapper, Reconciliation Cost Evaluator, Polytomy Enumerator,
Cost-Guided Resolver, NJ tie breaker) are modelled here from the
specification's component contracts, and the claims about them are settled
against these models.  Species-tree nodes are represented by their root path
(list of child indices), so that ancestry is list-prefix and the lowest
common ancestor is the longest common prefix.
-/


/-! ## Species-tree paths: prefix order and longest common prefix

A species-tree node is identified by the path of child indices from the
root.  `pre a b` decides whether `a` is an ancestor-or-equal of `b`. -/


/-- Boolean ancestor-or-equal test on species paths (list-prefix test). -/
def pre : List Nat → List Nat → Bool
  | [], _ => true
  | _ :: _, [] => false
  | a :: as, b :: bs => a == b && pre as bs


/-- Longest common prefix of two species paths: the LCA of the two nodes. -/
def lcp : List Nat → List Nat → List Nat
  | a :: as, b :: bs => if a = b then a :: lcp as bs else []
  | _, _ => []


/-- LCA of a nonempty family of species nodes, as iterated `lcp`
(spec §4.2: the image of an internal node is the LCA of its children's
images). The empty family maps to the species root. -/
def lcaList : List (List Nat) → List Nat
  | [] => []
  | p :: ps => ps.foldl lcp p


/-! ## Candidate refinements: rooted binary trees over labeled leaves

`BTree` is the shape of a candidate refinement of one polytomy (spec §3):
a binary tree whose leaves are the indices `0, …, k-1` of the polytomy's
children. -/


inductive BTree where
  | lf (i : Nat)
  | nd (l r : BTree)
deriving DecidableEq, Repr


/-- Leaf labels of a candidate, in left-to-right order. -/
def leavesB : BTree → List Nat
  | .lf i => [i]
  | .nd l r => leavesB l ++ leavesB r


def numLeaves : BTree → Nat
  | .lf _ => 1
  | .nd l r => numLeaves l + numLeaves r


def numNodes : BTree → Nat
  | .lf _ => 1
  | .nd l r => numNodes l + numNodes r + 1


/-- Modelled from the spec: the Polytomy Enumerator's incremental step
(spec §4.4, "generates shapes incrementally via sequential leaf insertion
into partially-built binary trees"): all ways to attach the new leaf `x`
onto one edge of `t` or above its root. -/
def insTree (x : Nat) : BTree → List BTree
  | .lf i => [.nd (.lf x) (.lf i)]
  | .nd l r =>
    .nd (.lf x) (.nd l r) ::
      ((insTree x l).map (fun l' => .nd l' r) ++ (insTree x r).map (fun r' => .nd l r'))


/-- Modelled from the spec: the Polytomy Enumerator (spec §4.4) — all
distinct unordered binary tree shapes over `k` labeled leaves, generated by
sequential leaf insertion. -/
def enum : Nat → List BTree
  | 0 => []
  | 1 => [.lf 0]
  | n + 2 => (enum (n + 1)).flatMap (insTree (n + 1))


/-- Double factorial; the candidate count for a polytomy of size `k`
is `dfac (2*k - 3)` (spec §4.4). -/
def dfac : Nat → Nat
  | 0 => 1
  | 1 => 1
  | n + 2 => (n + 2) * dfac n


/-! ## Unordered-topology equality of candidates -/


/-- Two candidates are the same unordered binary topology: equal up to
swapping the two children at any internal node. -/
def uEq : BTree → BTree → Bool
  | .lf i, .lf j => i == j
  | .nd a b, .nd c d => (uEq a c && uEq b d) || (uEq a d && uEq b c)
  | .lf _, .nd _ _ => false
  | .nd _ _, .lf _ => false


/-- Undoing one leaf insertion: delete the (unique) leaf labelled `x`
and contract its parent node. -/
def contract (x : Nat) : BTree → Option BTree
  | .lf _ => none
  | .nd l r =>
    if l = .lf x then some r
    else if r = .lf x then some l
    else
      match contract x l with
      | some l' => some (.nd l' r)
      | none =>
        match contract x r with
        | some r' => some (.nd l r')
        | none => none


/-! ## Reconciliation cost of a candidate refinement

Species images are root paths; a child's image extends its parent's image.
Per spec §4.3 a node is a duplication iff its image equals the image of at
least one child, and an edge's loss count is the number of species-tree
edges strictly between the two images (0 if they are equal or adjacent),
which on root paths is the path-length difference minus 2 (clamped at 0) —
the reading under which the spec's own worked example (§8) has cost
1 duplication, 0 losses. -/


/-- Modelled from the spec: loss count of one gene-tree edge (spec §4.3),
from the parent's species image `p` to the child's image `q`. -/
def lossB (p q : List Nat) : Nat := q.length - p.length - 2


/-- Modelled from the spec: the Reconciliation Cost Evaluator (spec §4.3)
restricted to the new internal nodes of a candidate refinement (spec §4.5).
`img i` is the species image (root path) of the polytomy's `i`-th child;
the result is (image of the candidate's root, duplication count, loss
count) over the candidate's internal nodes and edges. -/
def candEval (img : Nat → List Nat) : BTree → List Nat × Nat × Nat
  | .lf i => (img i, 0, 0)
  | .nd l r =>
    let el := candEval img l
    let er := candEval img r
    let p := lcp el.1 er.1
    let dup := if p = el.1 ∨ p = er.1 then 1 else 0
    (p, dup + el.2.1 + er.2.1, lossB p el.1 + lossB p er.1 + el.2.2 + er.2.2)


/-- Total induced cost of a candidate: duplications + losses at the default
unit event weights (spec §4.3, §6). -/
def candCost (img : Nat → List Nat) (t : BTree) : Nat :=
  (candEval img t).2.1 + (candEval img t).2.2


/-! ## The Cost-Guided Resolver's search over one polytomy's candidates -/


/-- One step of the resolver's search (spec §4.5): update the best cost
seen so far and the list of candidates achieving it. -/
def searchStep (img : Nat → List Nat) (acc : Option (Nat × List BTree)) (t : BTree) :
    Option (Nat × List BTree) :=
  match acc with
  | none => some (candCost img t, [t])
  | some (b, ts) =>
    if candCost img t < b then some (candCost img t, [t])
    else if candCost img t = b then some (b, ts ++ [t])
    else some (b, ts)


/-- Modelled from the spec: the Cost-Guided Resolver's search (spec §4.5):
scan the enumerator's candidates for one polytomy, retaining the global
minimum cost and the subset of candidates achieving it. -/
def search (img : Nat → List Nat) (cands : List BTree) : Option (Nat × List BTree) :=
  cands.foldl (searchStep img) none


/-- The minimum cost retained by the resolver's search. -/
def searchBest (img : Nat → List Nat) (cands : List BTree) : Option Nat :=
  (search img cands).map (fun r => r.1)


/-- Minimum of an optional running minimum and one more value. -/
def omin (a : Option Nat) (c : Nat) : Option Nat :=
  match a with
  | none => some c
  | some b => some (Nat.min b c)


/-- Brute-force reference: the minimum of the induced costs of all
candidates, computed directly over the full candidate list. -/
def bruteMin (img : Nat → List Nat) (cands : List BTree) : Option Nat :=
  (cands.map (candCost img)).foldl omin none


def minf (img : Nat → List Nat) (m : Nat) (t : BTree) : Nat :=
  Nat.min m (candCost img t)


/-! ## Deterministic canonical ordering and tie-break choice -/


/-- Modelled from the spec: the deterministic canonical (lexicographic)
total order on candidate topologies used for tie-breaking (spec §4.6:
"a deterministic canonical ordering … never by arbitrary iteration
order"). -/
def ble : BTree → BTree → Bool
  | .lf i, .lf j => decide (i ≤ j)
  | .lf _, .nd _ _ => true
  | .nd _ _, .lf _ => false
  | .nd a b, .nd c d => if a = c then ble b d else ble a c


/-- Least-of-two in the canonical order. -/
def bmin (a b : BTree) : BTree := if ble a b = true then a else b


def obmin (a : Option BTree) (t : BTree) : Option BTree :=
  match a with
  | none => some t
  | some u => some (bmin u t)


/-- Modelled from the spec: the deterministic canonical choice among tied
candidates (spec §4.6): the least candidate in the canonical order. -/
def chooseCanon (l : List BTree) : Option BTree :=
  l.foldl obmin none


/-- Modelled from the spec: resolution of one polytomy (spec §4.5–§4.6):
run the cost-guided search; a unique minimum-cost survivor is applied
directly, and ties among the retained minimum-cost candidates are broken by
the deterministic canonical ordering. -/
def resolvePoly (img : Nat → List Nat) (cands : List BTree) : Option BTree :=
  match search img cands with
  | none => none
  | some r => chooseCanon r.2


/-! ## Tree Model, LCA Mapper, Cost Evaluator and Resolver on gene trees

Both trees are rooted; species-tree nodes are identified by their root
path, gene-tree leaves carry the label of their species (spec §3). -/


/-- Modelled from the spec: the species tree of the Tree Model (spec §3). -/
inductive STree where
  | leaf (lab : Nat)
  | node (cs : List STree)


mutual
/-- Modelled from the spec: species-leaf lookup used by the LCA Mapper
(spec §4.2): the root path of the species leaf carrying the given label. -/
def findPath (lab : Nat) : STree → Option (List Nat)
  | .leaf l => if l = lab then some [] else none
  | .node cs => findPathL lab 0 cs

def findPathL (lab : Nat) (i : Nat) : List STree → Option (List Nat)
  | [] => none
  | c :: rest =>
    match findPath lab c with
    | some p => some (i :: p)
    | none => findPathL lab (i + 1) rest
end


/-- Modelled from the spec: the gene tree of the Tree Model (spec §3):
leaves carry species labels, internal nodes may be polytomies. -/
inductive GTree where
  | leaf (sp : Nat)
  | node (cs : List GTree)


mutual
/-- Species labels of the gene tree's leaves, left to right. -/
def gleaves : GTree → List Nat
  | .leaf sp => [sp]
  | .node cs => gleavesL cs

def gleavesL : List GTree → List Nat
  | [] => []
  | c :: rest => gleaves c ++ gleavesL rest
end


mutual
/-- Modelled from the spec: the LCA Mapper (spec §4.2): a single bottom-up
pass mapping each gene node to a species node (root path): a leaf maps to
the species leaf matching its label, an internal node to the LCA of its
children's images; it fails with the offending leaf's label (the
`MappingError` identity of spec §7) when a leaf's label has no match. -/
def M (S : STree) : GTree → Except Nat (List Nat)
  | .leaf sp =>
    match findPath sp S with
    | some p => .ok p
    | none => .error sp
  | .node cs =>
    match ML S cs with
    | .ok ps => .ok (lcaList ps)
    | .error e => .error e

def ML (S : STree) : List GTree → Except Nat (List (List Nat))
  | [] => .ok []
  | c :: rest =>
    match M S c with
    | .error e => .error e
    | .ok p =>
      match ML S rest with
      | .ok ps => .ok (p :: ps)
      | .error e => .error e
end


mutual
/-- Modelled from the spec: the Reconciliation Cost Evaluator over a whole
gene (sub)tree (spec §4.3): one bottom-up pass returning (species image,
duplication count, loss count); a node is a duplication iff its image
equals the image of at least one child, and each edge contributes the
species edges strictly between the two images as losses. -/
def evalC (S : STree) : GTree → Except Nat (List Nat × Nat × Nat)
  | .leaf sp =>
    match findPath sp S with
    | some p => .ok (p, 0, 0)
    | none => .error sp
  | .node cs =>
    match evalCL S cs with
    | .error e => .error e
    | .ok rs =>
      .ok (lcaList (rs.map (fun r => r.1)),
        (if (rs.map (fun r => r.1)).any (fun q => q == lcaList (rs.map (fun r => r.1)))
          then 1 else 0) + (rs.map (fun r => r.2.1)).sum,
        ((rs.map (fun r => r.1)).map (fun q => lossB (lcaList (rs.map (fun r => r.1))) q)).sum
          + (rs.map (fun r => r.2.2)).sum)

def evalCL (S : STree) : List GTree → Except Nat (List (List Nat × Nat × Nat))
  | [] => .ok []
  | c :: rest =>
    match evalC S c with
    | .error e => .error e
    | .ok r =>
      match evalCL S rest with
      | .ok rs => .ok (r :: rs)
      | .error e => .error e
end


/-- Splice a chosen candidate refinement over the polytomy's children
(spec §3, candidate-refinement lifecycle). -/
def splice (cs : List GTree) : BTree → GTree
  | .lf i => cs.getD i (.node [])
  | .nd l r => .node [splice cs l, splice cs r]


mutual
/-- Modelled from the spec: the Cost-Guided Resolver over the whole gene
tree (spec §4.5): process bottom-up; keep leaves and nodes of at most two
children unchanged; replace each polytomy by its minimum-cost candidate
refinement over its (already resolved) children, ties broken by the
canonical ordering (spec §4.6). -/
def resolveGT (S : STree) : GTree → Except Nat GTree
  | .leaf sp =>
    match findPath sp S with
    | some _ => .ok (.leaf sp)
    | none => .error sp
  | .node cs =>
    match resolveGTL S cs with
    | .error e => .error e
    | .ok cs' =>
      if cs'.length ≤ 2 then .ok (.node cs')
      else
        match ML S cs' with
        | .error e => .error e
        | .ok ps =>
          match resolvePoly (fun i => ps.getD i []) (enum cs'.length) with
          | some best => .ok (splice cs' best)
          | none => .error 0

def resolveGTL (S : STree) : List GTree → Except Nat (List GTree)
  | [] => .ok []
  | c :: rest =>
    match resolveGT S c with
    | .error e => .error e
    | .ok c' =>
      match resolveGTL S rest with
      | .ok cs' => .ok (c' :: cs')
      | .error e => .error e
end


/-- The resolver's overall output (spec §6): the resolved gene tree and its
total reconciliation cost (duplication count, loss count). -/
def resolveWithCost (S : STree) (g : GTree) : Except Nat (GTree × Nat × Nat) :=
  match resolveGT S g with
  | .error e => .error e
  | .ok g' =>
    match evalC S g' with
    | .error e => .error e
    | .ok r => .ok (g', r.2.1, r.2.2)


mutual
/-- A gene tree with no polytomy: every node has at most two children. -/
def gBinary : GTree → Bool
  | .leaf _ => true
  | .node cs => decide (cs.length ≤ 2) && gBinaryL cs

def gBinaryL : List GTree → Bool
  | [] => true
  | c :: rest => gBinary c && gBinaryL rest
end


/-- Ancestor-or-equal relation on gene-tree nodes: `GDesc a b` holds when
`b` lies in the subtree rooted at `a`. -/
inductive GDesc : GTree → GTree → Prop
  | refl (t : GTree) : GDesc t t
  | child {c : GTree} {cs : List GTree} {b : GTree} :
      c ∈ cs → GDesc c b → GDesc (.node cs) b


/-! ## The shipped `setup.py` (the repository's only source file) -/


/-- The `README` binding of `setup.py`: the file's contents when a file
named `README` exists in the working directory, else the empty-string
placeholder ("readme is generated on release"). -/
def readmeValue : Option String → String
  | some contents => contents
  | none => ""


/-- The `long_description` argument `setup.py` passes to
`setuptools.setup`: `README + '\n'`. -/
def longDescription (readmeFile : Option String) : String :=
  readmeValue readmeFile ++ "\n"


/-- A Python package's module-level metadata read by `setup.py`:
`__project__` and `__version__`. -/
structure PkgMeta where
  project : String
  version : String


/-- `sys.path.insert(0, dir)` as executed by `setup.py` line 18: the
resolved `python` directory becomes the first `sys.path` entry. -/
def sysPathInsert0 (dir : String) (sysPath : List String) : List String :=
  dir :: sysPath


/-- Python import resolution over `sys.path`: the first directory providing
the requested package wins. -/
def importPkg (provides : String → Option PkgMeta) : List String → Option PkgMeta
  | [] => none
  | dir :: rest =>
    match provides dir with
    | some m => some m
    | none => importPkg provides rest


/-- The `name`/`version` arguments `setup.py` passes to `setuptools.setup`:
the script first inserts the resolved local `python` directory at position 0
of `sys.path`, then imports `PolytomySolver`, then calls `setup` with the
imported package's `__project__` and `__version__`. -/
def setupNameVersion (provides : String → Option PkgMeta) (pythonDir : String)
    (sysPath : List String) : Option (String × String) :=
  match importPkg provides (sysPathInsert0 pythonDir sysPath) with
  | some m => some (m.project, m.version)
  | none => none


/-! ## Generic list lemmas used throughout -/


/-- Folding a right-commutative step over a list depends only on the
multiset of elements, not their order. -/
theorem perm_foldl {α β : Type} {f : β → α → β}
    (hf : ∀ b x y, f (f b x) y = f (f b y) x) :
    ∀ {l1 l2 : List α}, l1.Perm l2 → ∀ b, l1.foldl f b = l2.foldl f b := by
  intro l1 l2 h
  induction h with
  | nil => intro b; rfl
  | cons x _ ih => intro b; simp only [List.foldl_cons]; exact ih _
  | swap x y l => intro b; simp only [List.foldl_cons]; rw [hf]
  | trans _ _ ih1 ih2 => intro b; rw [ih1, ih2]


/-- Pairwise property of a flatMap, from pairwise blocks plus
pairwise-compatible parents. -/
theorem pairwise_flatMap {α β : Type} {R : β → β → Prop} {f : α → List β} :
    ∀ {l : List α}, (∀ a ∈ l, (f a).Pairwise R) →
    l.Pairwise (fun a b => ∀ x ∈ f a, ∀ y ∈ f b, R x y) →
    (l.flatMap f).Pairwise R := by
  intro l
  induction l with
  | nil => intro _ _; simp
  | cons a l ih =>
    intro hblocks hcross
    rw [List.pairwise_cons] at hcross
    simp only [List.flatMap_cons, List.pairwise_append]
    refine ⟨hblocks a (by simp), ih (fun b hb => hblocks b (by simp [hb])) hcross.2, ?_⟩
    intro x hx y hy
    rw [List.mem_flatMap] at hy
    obtain ⟨b, hb, hyb⟩ := hy
    exact hcross.1 b hb x hx y hyb


/-- Length of a flatMap whose blocks all have the same length. -/
theorem length_flatMap_const {α β : Type} {f : α → List β} {c : Nat} :
    ∀ {l : List α}, (∀ a ∈ l, (f a).length = c) →
    (l.flatMap f).length = l.length * c := by
  intro l
  induction l with
  | nil => intro _; simp
  | cons a l ih =>
    intro h
    simp only [List.flatMap_cons, List.length_append, List.length_cons]
    rw [h a (by simp), ih (fun b hb => h b (by simp [hb]))]
    ring


theorem pre_refl : ∀ p : List Nat, pre p p = true := by
  intro p
  induction p with
  | nil => rfl
  | cons a as ih => simp [pre, ih]


theorem pre_trans : ∀ {a b c : List Nat},
    pre a b = true → pre b c = true → pre a c = true := by
  intro a
  induction a with
  | nil => intro b c _ _; rfl
  | cons x xs ih =>
    intro b c hab hbc
    match b, c with
    | [], _ => simp [pre] at hab
    | _ :: _, [] => simp [pre] at hbc
    | y :: ys, z :: zs =>
      simp only [pre, Bool.and_eq_true, beq_iff_eq] at hab hbc ⊢
      exact ⟨hab.1.trans hbc.1, ih hab.2 hbc.2⟩


theorem lcp_pre_left : ∀ a b : List Nat, pre (lcp a b) a = true := by
  intro a
  induction a with
  | nil => intro b; cases b <;> rfl
  | cons x xs ih =>
    intro b
    cases b with
    | nil => rfl
    | cons y ys =>
      by_cases h : x = y <;> simp [lcp, h, pre, ih]


theorem lcp_pre_right : ∀ a b : List Nat, pre (lcp a b) b = true := by
  intro a
  induction a with
  | nil => intro b; cases b <;> rfl
  | cons x xs ih =>
    intro b
    cases b with
    | nil => rfl
    | cons y ys =>
      by_cases h : x = y <;> simp [lcp, h, pre, ih]


theorem foldl_lcp_pre_init : ∀ (ps : List (List Nat)) (p : List Nat),
    pre (ps.foldl lcp p) p = true := by
  intro ps
  induction ps with
  | nil => intro p; exact pre_refl p
  | cons q qs ih =>
    intro p
    simp only [List.foldl_cons]
    exact pre_trans (ih (lcp p q)) (lcp_pre_left p q)


theorem foldl_lcp_pre_mem : ∀ (ps : List (List Nat)) (p q : List Nat),
    q ∈ ps → pre (ps.foldl lcp p) q = true := by
  intro ps
  induction ps with
  | nil => intro p q h; simp at h
  | cons r rs ih =>
    intro p q h
    simp only [List.foldl_cons]
    rcases List.mem_cons.mp h with h | h
    · subst h
      exact pre_trans (foldl_lcp_pre_init rs (lcp p q)) (lcp_pre_right p q)
    · exact ih (lcp p r) q h


/-- The LCA of a family is an ancestor-or-equal of every member. -/
theorem lcaList_pre_mem {ps : List (List Nat)} {q : List Nat} (h : q ∈ ps) :
    pre (lcaList ps) q = true := by
  match ps, h with
  | p :: ps, h =>
    rcases List.mem_cons.mp h with h | h
    · subst h; exact foldl_lcp_pre_init ps q
    · exact foldl_lcp_pre_mem ps p q h


theorem length_insTree (x : Nat) : ∀ t : BTree, (insTree x t).length = numNodes t := by
  intro t
  induction t with
  | lf i => rfl
  | nd l r ihl ihr =>
    simp only [insTree, List.length_cons, List.length_append, List.length_map, numNodes,
      ihl, ihr]


theorem numLeaves_insTree (x : Nat) :
    ∀ {t u : BTree}, u ∈ insTree x t → numLeaves u = numLeaves t + 1 := by
  intro t
  induction t with
  | lf i => intro u hu; simp [insTree] at hu; subst hu; rfl
  | nd l r ihl ihr =>
    intro u hu
    simp only [insTree, List.mem_cons, List.mem_append, List.mem_map] at hu
    rcases hu with hu | ⟨l', hl', hu⟩ | ⟨r', hr', hu⟩
    · subst hu; simp [numLeaves]; ring
    · subst hu; simp [numLeaves, ihl hl']; ring
    · subst hu; simp [numLeaves, ihr hr']; ring


theorem numLeaves_pos : ∀ t : BTree, 1 ≤ numLeaves t := by
  intro t
  induction t with
  | lf i => exact Nat.le_refl 1
  | nd l r ihl ihr => simp only [numLeaves]; omega


theorem numNodes_eq_numLeaves : ∀ t : BTree, numNodes t = 2 * numLeaves t - 1 := by
  intro t
  induction t with
  | lf i => rfl
  | nd l r ihl ihr =>
    have hl := numLeaves_pos l
    have hr := numLeaves_pos r
    simp only [numNodes, numLeaves, ihl, ihr]
    omega


/-- The leaf multiset of an inserted-into tree gains exactly the new leaf. -/
theorem leavesB_insTree (x : Nat) :
    ∀ {t u : BTree}, u ∈ insTree x t → (leavesB u).Perm (x :: leavesB t) := by
  intro t
  induction t with
  | lf i => intro u hu; simp [insTree] at hu; subst hu; simp [leavesB]
  | nd l r ihl ihr =>
    intro u hu
    simp only [insTree, List.mem_cons, List.mem_append, List.mem_map] at hu
    rcases hu with hu | ⟨l', hl', hu⟩ | ⟨r', hr', hu⟩
    · subst hu; simp [leavesB]
    · subst hu
      simp only [leavesB]
      exact ((ihl hl').append_right (leavesB r)).trans (by simp [leavesB])
    · subst hu
      simp only [leavesB]
      refine ((ihr hr').append_left (leavesB l)).trans ?_
      exact List.perm_middle


theorem length_leavesB : ∀ t : BTree, (leavesB t).length = numLeaves t := by
  intro t
  induction t with
  | lf i => rfl
  | nd l r ihl ihr => simp [leavesB, numLeaves, ihl, ihr]


/-- Every generated candidate is a topology over exactly the polytomy's
children `{0, …, n-1}` (each child appearing exactly once). -/
theorem leavesB_enum : ∀ n, ∀ t ∈ enum (n + 1), (leavesB t).Perm (List.range (n + 1)) := by
  intro n
  induction n with
  | zero =>
    intro t ht
    simp only [enum, List.mem_singleton] at ht
    subst ht
    simp [leavesB, List.range_succ]
  | succ m ih =>
    intro t ht
    simp only [enum, List.mem_flatMap] at ht
    obtain ⟨s, hs, hts⟩ := ht
    refine (leavesB_insTree (m + 1) hts).trans ?_
    refine (((ih s hs).cons (m + 1)).trans ?_)
    have hr : List.range (m + 1 + 1) = List.range (m + 1) ++ [m + 1] := List.range_succ (m + 1)
    rw [hr]
    have hp : (List.range (m + 1) ++ [m + 1]).Perm ((m + 1) :: (List.range (m + 1) ++ [])) :=
      List.perm_middle
    simpa using hp.symm


theorem numLeaves_enum : ∀ n, ∀ t ∈ enum (n + 1), numLeaves t = n + 1 := by
  intro n t ht
  rw [← length_leavesB]
  rw [(leavesB_enum n t ht).length_eq]
  simp


/-- The enumerator produces exactly `(2k-3)!!` candidates (spec §4.4, §8). -/
theorem length_enum : ∀ n, (enum (n + 2)).length = dfac (2 * n + 1) := by
  intro n
  induction n with
  | zero => rfl
  | succ m ih =>
    have hconst : ∀ t ∈ enum (m + 2), (insTree (m + 2) t).length = 2 * m + 3 := by
      intro t ht
      rw [length_insTree, numNodes_eq_numLeaves, numLeaves_enum (m + 1) t ht]
      omega
    show ((enum (m + 2)).flatMap (insTree (m + 2))).length = dfac (2 * m + 3)
    rw [length_flatMap_const hconst, ih]
    show dfac (2 * m + 1) * (2 * m + 3) = dfac (2 * m + 1 + 2)
    rw [dfac]
    ring


theorem uEq_refl : ∀ t : BTree, uEq t t = true := by
  intro t
  induction t with
  | lf i => simp [uEq]
  | nd l r ihl ihr => simp [uEq, ihl, ihr]


theorem uEq_symm : ∀ {a b : BTree}, uEq a b = true → uEq b a = true := by
  intro a
  induction a with
  | lf i =>
    intro b h
    match b with
    | .lf j => simp [uEq] at h ⊢; omega
    | .nd _ _ => simp [uEq] at h
  | nd l r ihl ihr =>
    intro b h
    match b with
    | .lf j => simp [uEq] at h
    | .nd c d =>
      simp only [uEq, Bool.or_eq_true, Bool.and_eq_true] at h ⊢
      rcases h with ⟨h1, h2⟩ | ⟨h1, h2⟩
      · exact Or.inl ⟨ihl h1, ihr h2⟩
      · exact Or.inr ⟨ihr h2, ihl h1⟩


theorem uEq_leaf_iff {i : Nat} : ∀ {u : BTree}, uEq (.lf i) u = true ↔ u = .lf i := by
  intro u
  match u with
  | .lf j => simp [uEq]; omega
  | .nd _ _ => simp [uEq]


/-- Unordered-equal candidates have the same leaf multiset. -/
theorem uEq_leaves_perm : ∀ {a b : BTree}, uEq a b = true →
    (leavesB a).Perm (leavesB b) := by
  intro a
  induction a with
  | lf i =>
    intro b h
    rw [uEq_leaf_iff.mp h]
  | nd l r ihl ihr =>
    intro b h
    match b with
    | .lf j => simp [uEq] at h
    | .nd c d =>
      simp only [uEq, Bool.or_eq_true, Bool.and_eq_true] at h
      rcases h with ⟨h1, h2⟩ | ⟨h1, h2⟩
      · exact ((ihl h1).append (ihr h2))
      · exact ((ihl h1).append (ihr h2)).trans List.perm_append_comm


theorem leavesB_ne_nil : ∀ t : BTree, leavesB t ≠ [] := by
  intro t
  induction t with
  | lf i => simp [leavesB]
  | nd l r ihl ihr => simp [leavesB, ihl]


theorem contract_none_of_not_mem {x : Nat} :
    ∀ {t : BTree}, x ∉ leavesB t → contract x t = none := by
  intro t
  induction t with
  | lf i => intro _; rfl
  | nd l r ihl ihr =>
    intro h
    simp only [leavesB, List.mem_append] at h
    push_neg at h
    have hl : l ≠ .lf x := by
      intro he; subst he; exact h.1 (by simp [leavesB])
    have hr : r ≠ .lf x := by
      intro he; subst he; exact h.2 (by simp [leavesB])
    simp [contract, hl, hr, ihl h.1, ihr h.2]


theorem mem_of_contract_some {x : Nat} {t : BTree} {t' : BTree}
    (h : contract x t = some t') : x ∈ leavesB t := by
  by_contra hx
  rw [contract_none_of_not_mem hx] at h
  exact Option.noConfusion h


theorem contract_some_of_mem {x : Nat} :
    ∀ {t : BTree}, x ∈ leavesB t → t ≠ .lf x → ∃ t', contract x t = some t' := by
  intro t
  induction t with
  | lf i =>
    intro h hne
    simp only [leavesB, List.mem_singleton] at h
    exact absurd (by rw [h]) hne
  | nd l r ihl ihr =>
    intro h _
    by_cases hl : l = .lf x
    · exact ⟨r, by simp [contract, hl]⟩
    · by_cases hr : r = .lf x
      · exact ⟨l, by simp [contract, hl, hr]⟩
      · simp only [leavesB, List.mem_append] at h
        by_cases hxl : x ∈ leavesB l
        · obtain ⟨l', hl'⟩ := ihl hxl hl
          exact ⟨.nd l' r, by simp [contract, hl, hr, hl']⟩
        · have hxr : x ∈ leavesB r := by
            rcases h with h | h
            · exact absurd h hxl
            · exact h
          obtain ⟨r', hr'⟩ := ihr hxr hr
          exact ⟨.nd l r', by simp [contract, hl, hr, contract_none_of_not_mem hxl, hr']⟩


/-- Every tree in `insTree x t` is internal. -/
theorem insTree_shape {x : Nat} :
    ∀ {t u : BTree}, u ∈ insTree x t → ∃ p q, u = .nd p q := by
  intro t u hu
  match t with
  | .lf i =>
    simp only [insTree, List.mem_singleton] at hu
    exact ⟨_, _, hu⟩
  | .nd l r =>
    simp only [insTree, List.mem_cons, List.mem_append, List.mem_map] at hu
    rcases hu with hu | ⟨l', _, hu⟩ | ⟨r', _, hu⟩
    · exact ⟨_, _, hu⟩
    · exact ⟨_, _, hu.symm⟩
    · exact ⟨_, _, hu.symm⟩


/-- Contracting the freshly inserted leaf recovers the tree it was
inserted into. -/
theorem contract_insTree {x : Nat} :
    ∀ {t u : BTree}, x ∉ leavesB t → u ∈ insTree x t → contract x u = some t := by
  intro t
  induction t with
  | lf i =>
    intro u hx hu
    simp only [insTree, List.mem_singleton] at hu
    subst hu
    simp [contract]
  | nd l r ihl ihr =>
    intro u hx hu
    simp only [leavesB, List.mem_append] at hx
    push_neg at hx
    have hlx : l ≠ .lf x := by
      intro he; subst he; exact hx.1 (by simp [leavesB])
    have hrx : r ≠ .lf x := by
      intro he; subst he; exact hx.2 (by simp [leavesB])
    simp only [insTree, List.mem_cons, List.mem_append, List.mem_map] at hu
    rcases hu with hu | ⟨l', hl', hu⟩ | ⟨r', hr', hu⟩
    · subst hu; simp [contract]
    · subst hu
      obtain ⟨p, q, hpq⟩ := insTree_shape hl'
      have hne : l' ≠ .lf x := by rw [hpq]; intro h; exact BTree.noConfusion h
      simp [contract, hne, hrx, ihl hx.1 hl']
    · subst hu
      obtain ⟨p, q, hpq⟩ := insTree_shape hr'
      have hne : r' ≠ .lf x := by rw [hpq]; intro h; exact BTree.noConfusion h
      simp [contract, hlx, hne, contract_none_of_not_mem hx.1, ihr hx.2 hr']


theorem eq_leaf_of_uEq_right {a : BTree} {x : Nat} (h : uEq a (.lf x) = true) :
    a = .lf x :=
  uEq_leaf_iff.mp (uEq_symm h)


theorem count_leavesB_uEq {a b : BTree} (h : uEq a b = true) (x : Nat) :
    (leavesB a).count x = (leavesB b).count x :=
  (uEq_leaves_perm h).count_eq x


theorem one_le_count_of_mem {x : Nat} {l : List Nat} (h : x ∈ l) : 1 ≤ l.count x := by
  rcases Nat.eq_zero_or_pos (l.count x) with h0 | h1
  · exact absurd h (List.count_eq_zero.mp h0)
  · exact h1


theorem mem_of_count_one {x : Nat} {l : List Nat} (h : l.count x = 1) : x ∈ l := by
  by_contra hx
  rw [List.count_eq_zero.mpr hx] at h
  exact Nat.zero_ne_one h


/-- If two trees each contain the leaf `x` exactly once and are the same
unordered topology, then deleting `x` from each leaves the same unordered
topology. -/
theorem uEq_contract {x : Nat} :
    ∀ {u1 u2 v1 v2 : BTree}, uEq u1 u2 = true → (leavesB u1).count x = 1 →
      contract x u1 = some v1 → contract x u2 = some v2 → uEq v1 v2 = true := by
  intro u1
  induction u1 with
  | lf i =>
    intro u2 v1 v2 _ _ hc _
    simp [contract] at hc
  | nd a b iha ihb =>
    intro u2 v1 v2 huv hcount hc1 hc2
    match u2 with
    | .lf j => simp [uEq] at huv
    | .nd c d =>
      rw [leavesB, List.count_append] at hcount
      simp only [uEq, Bool.or_eq_true, Bool.and_eq_true] at huv
      simp only [contract] at hc1 hc2
      by_cases hax : a = .lf x
      · subst hax
        rw [if_pos rfl] at hc1
        have hv1 : b = v1 := Option.some.inj hc1
        have hcb : (leavesB b).count x = 0 := by
          simp [leavesB, List.count_cons] at hcount
          omega
        rcases huv with ⟨h1, h2⟩ | ⟨h1, h2⟩
        · have hcx : c = .lf x := uEq_leaf_iff.mp h1
          rw [if_pos hcx] at hc2
          have hv2 : d = v2 := Option.some.inj hc2
          rw [← hv1, ← hv2]
          exact h2
        · have hdx : d = .lf x := uEq_leaf_iff.mp h1
          have hcnex : c ≠ .lf x := by
            intro he
            have hh := count_leavesB_uEq h2 x
            rw [he] at hh
            simp [leavesB, List.count_cons] at hh
            omega
          rw [if_neg hcnex, if_pos hdx] at hc2
          have hv2 : c = v2 := Option.some.inj hc2
          rw [← hv1, ← hv2]
          exact h2
      · by_cases hbx : b = .lf x
        · subst hbx
          rw [if_neg hax, if_pos rfl] at hc1
          have hv1 : a = v1 := Option.some.inj hc1
          have hca0 : (leavesB a).count x = 0 := by
            simp [leavesB, List.count_cons] at hcount
            omega
          rcases huv with ⟨h1, h2⟩ | ⟨h1, h2⟩
          · have hdx : d = .lf x := uEq_leaf_iff.mp h2
            have hcnex : c ≠ .lf x := by
              intro he
              have hh := count_leavesB_uEq h1 x
              rw [he] at hh
              simp [leavesB, List.count_cons] at hh
              omega
            rw [if_neg hcnex, if_pos hdx] at hc2
            have hv2 : c = v2 := Option.some.inj hc2
            rw [← hv1, ← hv2]
            exact h1
          · have hcx : c = .lf x := uEq_leaf_iff.mp h2
            rw [if_pos hcx] at hc2
            have hv2 : d = v2 := Option.some.inj hc2
            rw [← hv1, ← hv2]
            exact h1
        · rw [if_neg hax, if_neg hbx] at hc1
          cases hca : contract x a with
          | some a' =>
            rw [hca] at hc1
            have hv1 : BTree.nd a' b = v1 := Option.some.inj hc1
            have hxa : x ∈ leavesB a := mem_of_contract_some hca
            have hca1 : (leavesB a).count x = 1 := by
              have h1 := one_le_count_of_mem hxa
              omega
            have hcb0 : (leavesB b).count x = 0 := by omega
            rcases huv with ⟨h1, h2⟩ | ⟨h1, h2⟩
            · have hcc : (leavesB c).count x = 1 := by
                rw [← count_leavesB_uEq h1 x]; exact hca1
              have hcd : (leavesB d).count x = 0 := by
                rw [← count_leavesB_uEq h2 x]; exact hcb0
              have hcnex : c ≠ .lf x := by
                intro he; rw [he] at h1; exact hax (eq_leaf_of_uEq_right h1)
              have hdnex : d ≠ .lf x := by
                intro he; rw [he] at hcd; simp [leavesB, List.count_cons] at hcd
              have hxc : x ∈ leavesB c := mem_of_count_one hcc
              obtain ⟨c', hcc'⟩ := contract_some_of_mem hxc hcnex
              rw [if_neg hcnex, if_neg hdnex, hcc'] at hc2
              have hv2 : BTree.nd c' d = v2 := Option.some.inj hc2
              rw [← hv1, ← hv2]
              have hih := iha h1 hca1 hca hcc'
              simp [uEq, hih, h2]
            · have hcd : (leavesB d).count x = 1 := by
                rw [← count_leavesB_uEq h1 x]; exact hca1
              have hcc0 : (leavesB c).count x = 0 := by
                rw [← count_leavesB_uEq h2 x]; exact hcb0
              have hcnex : c ≠ .lf x := by
                intro he; rw [he] at hcc0; simp [leavesB, List.count_cons] at hcc0
              have hdnex : d ≠ .lf x := by
                intro he; rw [he] at h1; exact hax (eq_leaf_of_uEq_right h1)
              have hxc : x ∉ leavesB c := List.count_eq_zero.mp hcc0
              have hxd : x ∈ leavesB d := mem_of_count_one hcd
              obtain ⟨d', hdd'⟩ := contract_some_of_mem hxd hdnex
              rw [if_neg hcnex, if_neg hdnex, contract_none_of_not_mem hxc, hdd'] at hc2
              have hv2 : BTree.nd c d' = v2 := Option.some.inj hc2
              rw [← hv1, ← hv2]
              have hih := iha h1 hca1 hca hdd'
              simp [uEq, hih, h2]
          | none =>
            rw [hca] at hc1
            cases hcb : contract x b with
            | none =>
              rw [hcb] at hc1
              exact absurd hc1 (by simp)
            | some b' =>
              rw [hcb] at hc1
              have hv1 : BTree.nd a b' = v1 := Option.some.inj hc1
              have hxb : x ∈ leavesB b := mem_of_contract_some hcb
              have hxa : x ∉ leavesB a := by
                intro hmem
                obtain ⟨a', ha'⟩ := contract_some_of_mem hmem hax
                rw [ha'] at hca
                exact Option.noConfusion hca
              have hca0 : (leavesB a).count x = 0 := List.count_eq_zero.mpr hxa
              have hcb1 : (leavesB b).count x = 1 := by omega
              rcases huv with ⟨h1, h2⟩ | ⟨h1, h2⟩
              · have hcc0 : (leavesB c).count x = 0 := by
                  rw [← count_leavesB_uEq h1 x]; exact hca0
                have hcd1 : (leavesB d).count x = 1 := by
                  rw [← count_leavesB_uEq h2 x]; exact hcb1
                have hcnex : c ≠ .lf x := by
                  intro he; rw [he] at hcc0; simp [leavesB, List.count_cons] at hcc0
                have hdnex : d ≠ .lf x := by
                  intro he; rw [he] at h2; exact hbx (eq_leaf_of_uEq_right h2)
                have hxc : x ∉ leavesB c := List.count_eq_zero.mp hcc0
                have hxd : x ∈ leavesB d := mem_of_count_one hcd1
                obtain ⟨d', hdd'⟩ := contract_some_of_mem hxd hdnex
                rw [if_neg hcnex, if_neg hdnex, contract_none_of_not_mem hxc, hdd'] at hc2
                have hv2 : BTree.nd c d' = v2 := Option.some.inj hc2
                rw [← hv1, ← hv2]
                have hih := ihb h2 hcb1 hcb hdd'
                simp [uEq, hih, h1]
              · have hcd0 : (leavesB d).count x = 0 := by
                  rw [← count_leavesB_uEq h1 x]; exact hca0
                have hcc1 : (leavesB c).count x = 1 := by
                  rw [← count_leavesB_uEq h2 x]; exact hcb1
                have hdnex : d ≠ .lf x := by
                  intro he; rw [he] at hcd0; simp [leavesB, List.count_cons] at hcd0
                have hcnex : c ≠ .lf x := by
                  intro he; rw [he] at h2; exact hbx (eq_leaf_of_uEq_right h2)
                have hxc : x ∈ leavesB c := mem_of_count_one hcc1
                obtain ⟨c', hcc'⟩ := contract_some_of_mem hxc hcnex
                rw [if_neg hcnex, if_neg hdnex, hcc'] at hc2
                have hv2 : BTree.nd c' d = v2 := Option.some.inj hc2
                rw [← hv1, ← hv2]
                have hih := ihb h2 hcb1 hcb hcc'
                simp [uEq, hih, h1]


theorem count_insTree {x : Nat} {t u : BTree} (hx : x ∉ leavesB t)
    (hu : u ∈ insTree x t) : (leavesB u).count x = 1 := by
  rw [(leavesB_insTree x hu).count_eq x]
  simp [List.count_cons, List.count_eq_zero.mpr hx]


theorem uEq_false_of_count_ne {a b : BTree} {x : Nat}
    (h : (leavesB a).count x ≠ (leavesB b).count x) : uEq a b = false := by
  cases hh : uEq a b
  · rfl
  · exact absurd (count_leavesB_uEq hh x) h


/-- Distinct insertion positions for a fresh leaf produce distinct
unordered topologies. -/
theorem pairwise_insTree {x : Nat} :
    ∀ {t : BTree}, x ∉ leavesB t → (leavesB t).Nodup →
      (insTree x t).Pairwise (fun a b => uEq a b = false) := by
  intro t
  induction t with
  | lf i => intro _ _; simp [insTree]
  | nd l r ihl ihr =>
    intro hx hnd
    simp only [leavesB, List.mem_append] at hx
    push_neg at hx
    obtain ⟨hxl, hxr⟩ := hx
    rw [leavesB, List.nodup_append] at hnd
    obtain ⟨ndl, ndr, hdisj⟩ := hnd
    simp only [insTree]
    rw [List.pairwise_cons]
    constructor
    · intro u hu
      rcases List.mem_append.mp hu with hu | hu
      · rw [List.mem_map] at hu
        obtain ⟨l', hl', rfl⟩ := hu
        obtain ⟨p, q, hpq⟩ := insTree_shape hl'
        have h1 : uEq (.lf x) l' = false := by
          cases hh : uEq (.lf x) l'
          · rfl
          · rw [uEq_leaf_iff.mp hh] at hpq; exact BTree.noConfusion hpq
        have h2 : uEq (.lf x) r = false := by
          cases hh : uEq (.lf x) r
          · rfl
          · rw [uEq_leaf_iff.mp hh] at hxr
            exact absurd (by simp [leavesB]) hxr
        simp [uEq, h1, h2]
      · rw [List.mem_map] at hu
        obtain ⟨r', hr', rfl⟩ := hu
        obtain ⟨p, q, hpq⟩ := insTree_shape hr'
        have h1 : uEq (.lf x) l = false := by
          cases hh : uEq (.lf x) l
          · rfl
          · rw [uEq_leaf_iff.mp hh] at hxl
            exact absurd (by simp [leavesB]) hxl
        have h2 : uEq (.lf x) r' = false := by
          cases hh : uEq (.lf x) r'
          · rfl
          · rw [uEq_leaf_iff.mp hh] at hpq; exact BTree.noConfusion hpq
        simp [uEq, h1, h2]
    · rw [List.pairwise_append]
      refine ⟨?_, ?_, ?_⟩
      · rw [List.pairwise_map]
        refine List.Pairwise.imp_of_mem ?_ (ihl hxl ndl)
        intro l1' l2' h1m h2m hne
        have hcross : uEq l1' r = false := by
          apply uEq_false_of_count_ne (x := x)
          rw [count_insTree hxl h1m, List.count_eq_zero.mpr hxr]
          omega
        cases hh : uEq (.nd l1' r) (.nd l2' r)
        · rfl
        · exfalso
          simp only [uEq, Bool.or_eq_true, Bool.and_eq_true] at hh
          rcases hh with ⟨hA, _⟩ | ⟨hB, _⟩
          · rw [hne] at hA; exact Bool.noConfusion hA
          · rw [hcross] at hB; exact Bool.noConfusion hB
      · rw [List.pairwise_map]
        refine List.Pairwise.imp_of_mem ?_ (ihr hxr ndr)
        intro r1' r2' h1m h2m hne
        have hcross : uEq l r2' = false := by
          apply uEq_false_of_count_ne (x := x)
          rw [List.count_eq_zero.mpr hxl, count_insTree hxr h2m]
          omega
        cases hh : uEq (.nd l r1') (.nd l r2')
        · rfl
        · exfalso
          simp only [uEq, Bool.or_eq_true, Bool.and_eq_true] at hh
          rcases hh with ⟨_, hA⟩ | ⟨hB, _⟩
          · rw [hne] at hA; exact Bool.noConfusion hA
          · rw [hcross] at hB; exact Bool.noConfusion hB
      · intro u1 hu1 u2 hu2
        rw [List.mem_map] at hu1 hu2
        obtain ⟨l', hl', rfl⟩ := hu1
        obtain ⟨r', hr', rfl⟩ := hu2
        have hA : uEq l' l = false := by
          apply uEq_false_of_count_ne (x := x)
          rw [count_insTree hxl hl', List.count_eq_zero.mpr hxl]
          omega
        have hB : uEq r l = false := by
          cases hh : uEq r l
          · rfl
          · exfalso
            have hperm := uEq_leaves_perm hh
            obtain ⟨a0, ha0⟩ := List.exists_mem_of_ne_nil (leavesB r) (leavesB_ne_nil r)
            exact hdisj (hperm.mem_iff.mp ha0) ha0
        cases hh : uEq (.nd l' r) (.nd l r')
        · rfl
        · exfalso
          simp only [uEq, Bool.or_eq_true, Bool.and_eq_true] at hh
          rcases hh with ⟨h1, _⟩ | ⟨_, h2⟩
          · rw [hA] at h1; exact Bool.noConfusion h1
          · rw [hB] at h2; exact Bool.noConfusion h2


/-- All candidates produced by the enumerator are pairwise distinct as
unordered topologies. -/
theorem pairwise_enum : ∀ n, (enum (n + 1)).Pairwise (fun a b => uEq a b = false) := by
  intro n
  induction n with
  | zero => simp [enum]
  | succ m ih =>
    show ((enum (m + 1)).flatMap (insTree (m + 1))).Pairwise _
    refine pairwise_flatMap ?_ ?_
    · intro t ht
      have hperm := leavesB_enum m t ht
      have hx : (m + 1) ∉ leavesB t := by
        rw [hperm.mem_iff]; simp
      have hnd : (leavesB t).Nodup := hperm.nodup_iff.mpr (List.nodup_range _)
      exact pairwise_insTree hx hnd
    · refine List.Pairwise.imp_of_mem ?_ ih
      intro t1 t2 h1 h2 hne u1 hu1 u2 hu2
      have hx1 : (m + 1) ∉ leavesB t1 := by
        rw [(leavesB_enum m t1 h1).mem_iff]; simp
      have hx2 : (m + 1) ∉ leavesB t2 := by
        rw [(leavesB_enum m t2 h2).mem_iff]; simp
      cases hh : uEq u1 u2
      · rfl
      · exfalso
        have hct := uEq_contract hh (count_insTree hx1 hu1)
          (contract_insTree hx1 hu1) (contract_insTree hx2 hu2)
        rw [hne] at hct
        exact Bool.noConfusion hct


/-- C2: for every polytomy with k ≥ 2 children, the Polytomy Enumerator
generates exactly (2k-3)!! candidates, every two of them distinct as
unordered binary topologies, and each over exactly the polytomy's children
{0, …, k-1}. -/
theorem enumerator_count_distinct (k : Nat) (hk : 2 ≤ k) :
    (enum k).length = dfac (2 * k - 3) ∧
    (enum k).Pairwise (fun a b => uEq a b = false) ∧
    ∀ t ∈ enum k, (leavesB t).Perm (List.range k) := by
  obtain ⟨n, rfl⟩ : ∃ n, k = n + 2 := ⟨k - 2, by omega⟩
  refine ⟨?_, pairwise_enum (n + 1), leavesB_enum (n + 1)⟩
  have h23 : 2 * (n + 2) - 3 = 2 * n + 1 := by omega
  rw [h23]
  exact length_enum n


/-- Witness for C2 at k = 3. -/
theorem enumerator_count_distinct_witness :
    2 ≤ 3 ∧
    ((enum 3).length = dfac (2 * 3 - 3) ∧
      (enum 3).Pairwise (fun a b => uEq a b = false) ∧
      ∀ t ∈ enum 3, (leavesB t).Perm (List.range 3)) :=
  ⟨by decide, enumerator_count_distinct 3 (by decide)⟩


theorem foldl_minf_le_init (img : Nat → List Nat) :
    ∀ (l : List BTree) (b : Nat), l.foldl (minf img) b ≤ b := by
  intro l
  induction l with
  | nil => intro b; exact Nat.le_refl b
  | cons t l ih =>
    intro b
    simp only [List.foldl_cons]
    exact Nat.le_trans (ih _) (Nat.min_le_left _ _)


/-- Characterization of the resolver's search from a running accumulator:
it computes the running minimum and keeps exactly the candidates whose cost
equals the final minimum. -/
theorem search_aux (img : Nat → List Nat) :
    ∀ (l : List BTree) (b : Nat) (ts : List BTree),
      l.foldl (searchStep img) (some (b, ts)) =
        some (l.foldl (minf img) b,
          (if l.foldl (minf img) b = b then ts else []) ++
            l.filter (fun t => candCost img t == l.foldl (minf img) b)) := by
  intro l
  induction l with
  | nil =>
    intro b ts
    simp
  | cons t l ih =>
    intro b ts
    simp only [List.foldl_cons]
    by_cases h1 : candCost img t < b
    · have hstep : searchStep img (some (b, ts)) t = some (candCost img t, [t]) := by
        simp [searchStep, h1]
      have hminf : minf img b t = candCost img t :=
        Nat.min_eq_right (Nat.le_of_lt h1)
      rw [hstep, ih]
      simp only [hminf]
      have hM := foldl_minf_le_init img l (candCost img t)
      have hMb : ¬ (l.foldl (minf img) (candCost img t) = b) := by omega
      have hcb : ¬ (candCost img t = b) := by omega
      by_cases hMc : l.foldl (minf img) (candCost img t) = candCost img t
      · have hbeq : (candCost img t == l.foldl (minf img) (candCost img t)) = true := by
          simp only [beq_iff_eq]
          omega
        simp [List.filter_cons, hMb, hMc, hbeq, hcb]
      · have hbeq : (candCost img t == l.foldl (minf img) (candCost img t)) = false := by
          simp only [beq_eq_false_iff_ne, ne_eq]
          omega
        simp [List.filter_cons, hMb, hMc, hbeq, hcb]
    · by_cases h2 : candCost img t = b
      · subst h2
        have hstep : searchStep img (some (candCost img t, ts)) t =
            some (candCost img t, ts ++ [t]) := by
          simp [searchStep]
        have hminf : minf img (candCost img t) t = candCost img t := Nat.min_self _
        rw [hstep, ih]
        simp only [hminf]
        by_cases hMb : l.foldl (minf img) (candCost img t) = candCost img t
        · have hbeq : (candCost img t == l.foldl (minf img) (candCost img t)) = true := by
            simp only [beq_iff_eq]
            omega
          simp [List.filter_cons, hMb, hbeq]
        · have hbeq : (candCost img t == l.foldl (minf img) (candCost img t)) = false := by
            simp only [beq_eq_false_iff_ne, ne_eq]
            omega
          simp [List.filter_cons, hMb, hbeq]
      · have hstep : searchStep img (some (b, ts)) t = some (b, ts) := by
          simp [searchStep, h1, h2]
        have hminf : minf img b t = b := Nat.min_eq_left (by omega)
        rw [hstep, ih]
        simp only [hminf]
        have hM := foldl_minf_le_init img l b
        have hbeq : (candCost img t == l.foldl (minf img) b) = false := by
          simp only [beq_eq_false_iff_ne, ne_eq]
          omega
        simp [List.filter_cons, hbeq]


theorem foldl_omin_map (img : Nat → List Nat) :
    ∀ (l : List BTree) (c : Nat),
      (l.map (candCost img)).foldl omin (some c) = some (l.foldl (minf img) c) := by
  intro l
  induction l with
  | nil => intro c; rfl
  | cons t l ih =>
    intro c
    simp only [List.map_cons, List.foldl_cons]
    exact ih _


/-- The search's retained minimum equals the brute-force minimum over all
candidates. -/
theorem searchBest_eq_bruteMin (img : Nat → List Nat) :
    ∀ cands, searchBest img cands = bruteMin img cands := by
  intro cands
  cases cands with
  | nil => rfl
  | cons t l =>
    show ((t :: l).foldl (searchStep img) none).map (fun r => r.1) =
      ((t :: l).map (candCost img)).foldl omin none
    simp only [List.foldl_cons, List.map_cons]
    rw [show searchStep img none t = some (candCost img t, [t]) from rfl]
    rw [search_aux img l (candCost img t) [t]]
    rw [show omin none (candCost img t) = some (candCost img t) from rfl]
    rw [foldl_omin_map img l (candCost img t)]
    rfl


/-- The search retains exactly the candidates achieving the brute-force
minimum cost, paired with that minimum. -/
theorem search_eq_filter (img : Nat → List Nat) :
    ∀ cands, search img cands =
      match bruteMin img cands with
      | none => none
      | some m => some (m, cands.filter (fun t => candCost img t == m)) := by
  intro cands
  cases cands with
  | nil => rfl
  | cons t l =>
    show (t :: l).foldl (searchStep img) none = _
    simp only [List.foldl_cons]
    rw [show searchStep img none t = some (candCost img t, [t]) from rfl]
    rw [search_aux img l (candCost img t) [t]]
    rw [show bruteMin img (t :: l) =
      (l.map (candCost img)).foldl omin (some (candCost img t)) from rfl]
    rw [foldl_omin_map img l (candCost img t)]
    have hM := foldl_minf_le_init img l (candCost img t)
    by_cases hMc : l.foldl (minf img) (candCost img t) = candCost img t
    · have hbeq : (candCost img t == l.foldl (minf img) (candCost img t)) = true := by
        simp only [beq_iff_eq]
        omega
      simp [List.filter_cons, hMc, hbeq]
    · have hbeq : (candCost img t == l.foldl (minf img) (candCost img t)) = false := by
        simp only [beq_eq_false_iff_ne, ne_eq]
        omega
      simp [List.filter_cons, hMc, hbeq]


theorem ble_total : ∀ a b : BTree, ble a b = true ∨ ble b a = true := by
  intro a
  induction a with
  | lf i =>
    intro b
    cases b with
    | lf j => simp [ble]; omega
    | nd c d => left; rfl
  | nd p q ihp ihq =>
    intro b
    cases b with
    | lf j => right; rfl
    | nd c d =>
      by_cases h : p = c
      · subst h
        simp only [ble, if_pos rfl]
        exact ihq d
      · have h' : c ≠ p := fun hh => h hh.symm
        simp only [ble, if_neg h, if_neg h']
        exact ihp c


theorem ble_antisymm : ∀ {a b : BTree}, ble a b = true → ble b a = true → a = b := by
  intro a
  induction a with
  | lf i =>
    intro b h1 h2
    cases b with
    | lf j =>
      simp only [ble, decide_eq_true_eq] at h1 h2
      have : i = j := Nat.le_antisymm h1 h2
      rw [this]
    | nd c d => simp [ble] at h2
  | nd p q ihp ihq =>
    intro b h1 h2
    cases b with
    | lf j => simp [ble] at h1
    | nd c d =>
      by_cases h : p = c
      · subst h
        simp only [ble, if_pos rfl] at h1 h2
        rw [ihq h1 h2]
      · have h' : c ≠ p := fun hh => h hh.symm
        simp only [ble, if_neg h, if_neg h'] at h1 h2
        exact absurd (ihp h1 h2) h


theorem ble_trans : ∀ {a b c : BTree},
    ble a b = true → ble b c = true → ble a c = true := by
  intro a
  induction a with
  | lf i =>
    intro b c h1 h2
    cases b with
    | lf j =>
      cases c with
      | lf k =>
        simp only [ble, decide_eq_true_eq] at h1 h2 ⊢
        omega
      | nd _ _ => rfl
    | nd p q =>
      cases c with
      | lf k => simp [ble] at h2
      | nd _ _ => rfl
  | nd p q ihp ihq =>
    intro b c h1 h2
    cases b with
    | lf j => simp [ble] at h1
    | nd r s =>
      cases c with
      | lf k => simp [ble] at h2
      | nd u v =>
        by_cases hpr : p = r
        · subst hpr
          by_cases hru : p = u
          · subst hru
            simp only [ble, if_pos rfl] at h1 h2 ⊢
            exact ihq h1 h2
          · simp only [ble, if_pos rfl, if_neg hru] at h2
            simp only [ble, if_neg hru]
            exact h2
        · by_cases hru : r = u
          · subst hru
            simp only [ble, if_neg hpr] at h1 ⊢
            exact h1
          · simp only [ble, if_neg hpr, if_neg hru] at h1 h2
            have hpu : p ≠ u := by
              intro he
              subst he
              exact hpr (ble_antisymm h1 h2)
            simp only [ble, if_neg hpu]
            exact ihp h1 h2


theorem bmin_eq_left {a b : BTree} (h : ble a b = true) : bmin a b = a := if_pos h


theorem bmin_eq_right {a b : BTree} (h : ¬ ble a b = true) : bmin a b = b := if_neg h


theorem bmin_comm : ∀ a b : BTree, bmin a b = bmin b a := by
  intro a b
  by_cases h1 : ble a b = true
  · by_cases h2 : ble b a = true
    · rw [bmin_eq_left h1, bmin_eq_left h2, ble_antisymm h1 h2]
    · rw [bmin_eq_left h1, bmin_eq_right h2]
  · by_cases h2 : ble b a = true
    · rw [bmin_eq_right h1, bmin_eq_left h2]
    · rcases ble_total a b with h | h
      · exact absurd h h1
      · exact absurd h h2


theorem bmin_assoc : ∀ a b c : BTree, bmin (bmin a b) c = bmin a (bmin b c) := by
  intro a b c
  by_cases hab : ble a b = true
  · rw [bmin_eq_left hab]
    by_cases hbc : ble b c = true
    · rw [bmin_eq_left hbc, bmin_eq_left (ble_trans hab hbc), bmin_eq_left hab]
    · rw [bmin_eq_right hbc]
  · have hba : ble b a = true := (ble_total a b).resolve_left hab
    rw [bmin_eq_right hab]
    by_cases hbc : ble b c = true
    · rw [bmin_eq_left hbc, bmin_eq_right hab]
    · have hcb : ble c b = true := (ble_total b c).resolve_left hbc
      rw [bmin_eq_right hbc]
      have hac : ¬ ble a c = true := fun h => hab (ble_trans h hcb)
      rw [bmin_eq_right hac]


theorem obmin_right_comm : ∀ (a : Option BTree) (x y : BTree),
    obmin (obmin a x) y = obmin (obmin a y) x := by
  intro a x y
  cases a with
  | none =>
    show some (bmin x y) = some (bmin y x)
    rw [bmin_comm]
  | some u =>
    show some (bmin (bmin u x) y) = some (bmin (bmin u y) x)
    rw [bmin_assoc, bmin_assoc, bmin_comm x y]


theorem chooseCanon_perm {l1 l2 : List BTree} (h : l1.Perm l2) :
    chooseCanon l1 = chooseCanon l2 :=
  perm_foldl obmin_right_comm h none


theorem omin_right_comm : ∀ (a : Option Nat) (x y : Nat),
    omin (omin a x) y = omin (omin a y) x := by
  intro a x y
  cases a with
  | none =>
    show some (Nat.min x y) = some (Nat.min y x)
    have hc : Nat.min x y = Nat.min y x :=
      Nat.le_antisymm (Nat.le_min.mpr ⟨Nat.min_le_right x y, Nat.min_le_left x y⟩)
        (Nat.le_min.mpr ⟨Nat.min_le_right y x, Nat.min_le_left y x⟩)
    rw [hc]
  | some b =>
    show some (Nat.min (Nat.min b x) y) = some (Nat.min (Nat.min b y) x)
    have hc : Nat.min (Nat.min b x) y = Nat.min (Nat.min b y) x := by
      apply Nat.le_antisymm
      · refine Nat.le_min.mpr ⟨Nat.le_min.mpr ⟨?_, ?_⟩, ?_⟩
        · exact Nat.le_trans (Nat.min_le_left _ _) (Nat.min_le_left _ _)
        · exact Nat.min_le_right _ _
        · exact Nat.le_trans (Nat.min_le_left _ _) (Nat.min_le_right _ _)
      · refine Nat.le_min.mpr ⟨Nat.le_min.mpr ⟨?_, ?_⟩, ?_⟩
        · exact Nat.le_trans (Nat.min_le_left _ _) (Nat.min_le_left _ _)
        · exact Nat.min_le_right _ _
        · exact Nat.le_trans (Nat.min_le_left _ _) (Nat.min_le_right _ _)
    rw [hc]


theorem bruteMin_perm (img : Nat → List Nat) {c1 c2 : List BTree} (h : c1.Perm c2) :
    bruteMin img c1 = bruteMin img c2 :=
  perm_foldl omin_right_comm (h.map (candCost img)) none


/-- C1: for every polytomy of size k with 2 ≤ k ≤ 7 and any species images
of its children, the minimum cost retained by the Cost-Guided Resolver's
search over the enumerator's candidates equals the brute-force minimum of
the induced reconciliation cost over all (2k-3)!! candidate binary
refinements. -/
theorem resolver_min_eq_bruteforce (k : Nat) (h2 : 2 ≤ k) (h7 : k ≤ 7)
    (img : Nat → List Nat) :
    searchBest img (enum k) = bruteMin img (enum k) ∧
    (enum k).length = dfac (2 * k - 3) := by
  refine ⟨searchBest_eq_bruteMin img (enum k), ?_⟩
  obtain ⟨n, rfl⟩ : ∃ n, k = n + 2 := ⟨k - 2, by omega⟩
  have h23 : 2 * (n + 2) - 3 = 2 * n + 1 := by omega
  rw [h23]
  exact length_enum n


/-- Witness for C1 at k = 3, with the species images of the worked example. -/
theorem resolver_min_eq_bruteforce_witness :
    (2 ≤ 3 ∧ 3 ≤ 7) ∧
    (searchBest (fun i => [[0, 0], [0, 1], [1, 0]].getD i []) (enum 3) =
        bruteMin (fun i => [[0, 0], [0, 1], [1, 0]].getD i []) (enum 3) ∧
      (enum 3).length = dfac (2 * 3 - 3)) :=
  ⟨⟨by decide, by decide⟩,
    resolver_min_eq_bruteforce 3 (by decide) (by decide)
      (fun i => [[0, 0], [0, 1], [1, 0]].getD i [])⟩


/-- C6: determinism of the resolver's choice at a polytomy: the chosen
topology is a function of the candidate set and species images only — any
reordering of the candidate list (in particular, a second run on identical
input) yields the identical chosen topology, because the minimum-cost set
is order-independent and ties are broken by the canonical ordering, never
by iteration order. -/
theorem resolver_choice_deterministic (img : Nat → List Nat)
    (c1 c2 : List BTree) (h : c1.Perm c2) :
    resolvePoly img c1 = resolvePoly img c2 := by
  simp only [resolvePoly]
  rw [search_eq_filter, search_eq_filter, bruteMin_perm img h]
  cases hm : bruteMin img c2 with
  | none => rfl
  | some m =>
    show chooseCanon ((c1.filter (fun t => candCost img t == m), m).1) = _
    exact chooseCanon_perm (h.filter _)


/-- Witness for C6: the choice over the k = 3 candidate list equals the
choice over its reversal. -/
theorem resolver_choice_deterministic_witness :
    (enum 3).Perm ((enum 3).reverse) ∧
    resolvePoly (fun i => [[0, 0], [0, 1], [1, 0]].getD i []) (enum 3) =
      resolvePoly (fun i => [[0, 0], [0, 1], [1, 0]].getD i []) ((enum 3).reverse) :=
  ⟨by decide,
    resolver_choice_deterministic (fun i => [[0, 0], [0, 1], [1, 0]].getD i [])
      (enum 3) ((enum 3).reverse) (by decide)⟩


/-- Structural induction on gene trees through their child lists. -/
theorem GTree.indOn (motive : GTree → Prop) (hl : ∀ sp, motive (.leaf sp))
    (hn : ∀ cs, (∀ c ∈ cs, motive c) → motive (.node cs)) : ∀ t, motive t := fun t =>
  match t with
  | .leaf sp => hl sp
  | .node cs => hn cs (fun c _ => GTree.indOn motive hl hn c)
termination_by t => sizeOf t
decreasing_by
  have h1 := List.sizeOf_lt_of_mem (by assumption : c ∈ cs)
  simp only [GTree.node.sizeOf_spec]
  omega


theorem ML_ok_mem {S : STree} :
    ∀ {cs : List GTree} {ps : List (List Nat)} {c : GTree},
      ML S cs = .ok ps → c ∈ cs → ∃ p ∈ ps, M S c = .ok p := by
  intro cs
  induction cs with
  | nil => intro ps c _ hc; simp at hc
  | cons t rest ih =>
    intro ps c hok hc
    simp only [ML] at hok
    cases hMt : M S t with
    | error e => rw [hMt] at hok; exact absurd hok (by simp)
    | ok p =>
      rw [hMt] at hok
      cases hML : ML S rest with
      | error e => rw [hML] at hok; exact absurd hok (by simp)
      | ok ps' =>
        rw [hML] at hok
        have hps := Except.ok.inj hok
        rcases List.mem_cons.mp hc with hceq | hcmem
        · subst hceq
          exact ⟨p, by rw [← hps]; simp, hMt⟩
        · obtain ⟨q, hqmem, hMq⟩ := ih hML hcmem
          exact ⟨q, by rw [← hps]; simp [hqmem], hMq⟩


/-- C7: the LCA mapping is monotone with respect to ancestry: whenever gene
node A is an ancestor (or equal) of gene node B and both map successfully,
the species image of A is an ancestor-or-equal of the species image of B;
the statement quantifies over arbitrary gene and species trees, hence holds
for the mapping used at every point of resolution. -/
theorem mapper_monotone {S : STree} {A B : GTree} (hd : GDesc A B) :
    ∀ {pA pB : List Nat}, M S A = .ok pA → M S B = .ok pB → pre pA pB = true := by
  induction hd with
  | refl t =>
    intro pA pB hA hB
    rw [hA] at hB
    rw [← Except.ok.inj hB]
    exact pre_refl pA
  | @child c cs b hmem hdesc ih =>
    intro pA pB hA hB
    simp only [M] at hA
    cases hML : ML S cs with
    | error e => rw [hML] at hA; exact absurd hA (by simp)
    | ok ps =>
      rw [hML] at hA
      have hpA := Except.ok.inj hA
      obtain ⟨pc, hpcmem, hMc⟩ := ML_ok_mem hML hmem
      exact pre_trans (hpA ▸ lcaList_pre_mem hpcmem) (ih hMc hB)


/-- Witness for C7 on a concrete two-node gene tree. -/
theorem mapper_monotone_witness :
    GDesc (.node [.leaf 5]) (.leaf 5) ∧ pre [0] [0] = true :=
  ⟨GDesc.child (List.mem_singleton.mpr rfl) (GDesc.refl _),
    mapper_monotone (S := .node [.leaf 5]) (A := .node [.leaf 5]) (B := .leaf 5)
      (GDesc.child (List.mem_singleton.mpr rfl) (GDesc.refl _)) rfl rfl⟩


theorem gleavesL_mem :
    ∀ {cs : List GTree} {y : Nat}, y ∈ gleavesL cs ↔ ∃ c ∈ cs, y ∈ gleaves c := by
  intro cs
  induction cs with
  | nil => intro y; simp [gleavesL]
  | cons t rest ih =>
    intro y
    simp only [gleavesL, List.mem_append, ih]
    constructor
    · rintro (h | ⟨c, hc, hy⟩)
      · exact ⟨t, by simp, h⟩
      · exact ⟨c, by simp [hc], hy⟩
    · rintro ⟨c, hc, hy⟩
      rcases List.mem_cons.mp hc with h | h
      · subst h; exact Or.inl hy
      · exact Or.inr ⟨c, h, hy⟩


theorem ML_error_mem {S : STree} :
    ∀ {cs : List GTree} {e : Nat}, ML S cs = .error e →
      ∃ c ∈ cs, M S c = .error e := by
  intro cs
  induction cs with
  | nil => intro e h; simp [ML] at h
  | cons t rest ih =>
    intro e h
    simp only [ML] at h
    cases hMt : M S t with
    | error e' =>
      rw [hMt] at h
      have he := Except.error.inj h
      exact ⟨t, by simp, by rw [hMt, he]⟩
    | ok p =>
      rw [hMt] at h
      cases hML : ML S rest with
      | ok ps => rw [hML] at h; exact absurd h (by simp)
      | error e' =>
        rw [hML] at h
        have he := Except.error.inj h
        obtain ⟨c, hc, hMc⟩ := ih (by rw [hML, he])
        exact ⟨c, by simp [hc], hMc⟩


theorem ML_error_of_mem {S : STree} :
    ∀ {cs : List GTree} {c : GTree} {e : Nat}, c ∈ cs → M S c = .error e →
      ∃ e', ML S cs = .error e' := by
  intro cs
  induction cs with
  | nil => intro c e hc _; simp at hc
  | cons t rest ih =>
    intro c e hc hMc
    simp only [ML]
    cases hMt : M S t with
    | error e' => exact ⟨e', rfl⟩
    | ok p =>
      rcases List.mem_cons.mp hc with heq | hmem
      · subst heq
        rw [hMc] at hMt
        exact absurd hMt (by simp)
      · obtain ⟨e', hML⟩ := ih hmem hMc
        rw [hML]
        exact ⟨e', rfl⟩


theorem M_error_surfaces {S : STree} :
    ∀ g, ∀ {e : Nat}, M S g = .error e → e ∈ gleaves g ∧ findPath e S = none := by
  intro g
  induction g using GTree.indOn with
  | hl sp =>
    intro e h
    simp only [M] at h
    cases hfp : findPath sp S with
    | some p => rw [hfp] at h; exact absurd h (by simp)
    | none =>
      rw [hfp] at h
      have he := Except.error.inj h
      subst he
      exact ⟨by simp [gleaves], hfp⟩
  | hn cs ih =>
    intro e h
    simp only [M] at h
    cases hML : ML S cs with
    | ok ps => rw [hML] at h; exact absurd h (by simp)
    | error e' =>
      rw [hML] at h
      have he := Except.error.inj h
      subst he
      obtain ⟨c, hc, hMc⟩ := ML_error_mem hML
      obtain ⟨hmem, hnone⟩ := ih c hc hMc
      refine ⟨?_, hnone⟩
      simp only [gleaves]
      exact gleavesL_mem.mpr ⟨c, hc, hmem⟩


theorem M_error_exists {S : STree} :
    ∀ g, (∃ sp ∈ gleaves g, findPath sp S = none) → ∃ e, M S g = .error e := by
  intro g
  induction g using GTree.indOn with
  | hl sp0 =>
    rintro ⟨sp, hsp, hnone⟩
    simp only [gleaves, List.mem_singleton] at hsp
    subst hsp
    exact ⟨sp, by simp only [M]; rw [hnone]⟩
  | hn cs ih =>
    rintro ⟨sp, hsp, hnone⟩
    simp only [gleaves] at hsp
    obtain ⟨c, hc, hy⟩ := gleavesL_mem.mp hsp
    obtain ⟨e, hMc⟩ := ih c hc ⟨sp, hy, hnone⟩
    obtain ⟨e', hML⟩ := ML_error_of_mem hc hMc
    exact ⟨e', by simp only [M]; rw [hML]⟩


/-- C8: the LCA Mapper fails if and only if some gene-leaf's species label
has no matching node in the species tree, and the error value surfaced to
the caller is the label of such an offending leaf. -/
theorem mapper_error_iff (S : STree) (g : GTree) :
    ((∃ e, M S g = .error e) ↔ ∃ sp ∈ gleaves g, findPath sp S = none) ∧
    (∀ e, M S g = .error e → e ∈ gleaves g ∧ findPath e S = none) := by
  refine ⟨⟨?_, M_error_exists g⟩, fun e he => M_error_surfaces g he⟩
  rintro ⟨e, he⟩
  obtain ⟨hm, hn⟩ := M_error_surfaces g he
  exact ⟨e, hm, hn⟩


/-- Witness for C8: a gene leaf labelled 7 with no match in the species
tree; the mapper surfaces exactly that leaf. -/
theorem mapper_error_iff_witness :
    7 ∈ gleaves (GTree.node [.leaf 0, .leaf 7]) ∧
      findPath 7 (STree.node [.leaf 0]) = none :=
  (mapper_error_iff (STree.node [.leaf 0]) (GTree.node [.leaf 0, .leaf 7])).2 7 rfl


theorem evalCL_ok_mem {S : STree} :
    ∀ {cs : List GTree} {rs : List (List Nat × Nat × Nat)} {c : GTree},
      evalCL S cs = .ok rs → c ∈ cs → ∃ r, evalC S c = .ok r := by
  intro cs
  induction cs with
  | nil => intro rs c _ hc; simp at hc
  | cons t rest ih =>
    intro rs c hok hc
    simp only [evalCL] at hok
    cases hEt : evalC S t with
    | error e => rw [hEt] at hok; exact absurd hok (by simp)
    | ok r =>
      rw [hEt] at hok
      cases hEL : evalCL S rest with
      | error e => rw [hEL] at hok; exact absurd hok (by simp)
      | ok rs' =>
        rcases List.mem_cons.mp hc with hceq | hcmem
        · subst hceq; exact ⟨r, hEt⟩
        · exact ih hEL hcmem


theorem gBinaryL_mem :
    ∀ {cs : List GTree} {c : GTree}, gBinaryL cs = true → c ∈ cs →
      gBinary c = true := by
  intro cs
  induction cs with
  | nil => intro c _ hc; simp at hc
  | cons t rest ih =>
    intro c h hc
    simp only [gBinaryL, Bool.and_eq_true] at h
    rcases List.mem_cons.mp hc with hceq | hcmem
    · subst hceq; exact h.1
    · exact ih h.2 hcmem


theorem resolveGTL_id {S : STree} :
    ∀ {cs : List GTree}, (∀ c ∈ cs, resolveGT S c = .ok c) →
      resolveGTL S cs = .ok cs := by
  intro cs
  induction cs with
  | nil => intro _; rfl
  | cons t rest ih =>
    intro h
    simp only [resolveGTL]
    rw [h t (by simp), ih (fun c hc => h c (by simp [hc]))]


theorem resolveGT_id {S : STree} :
    ∀ g, gBinary g = true → (∃ r, evalC S g = .ok r) → resolveGT S g = .ok g := by
  intro g
  induction g using GTree.indOn with
  | hl sp =>
    intro _ hev
    obtain ⟨r, hr⟩ := hev
    simp only [evalC] at hr
    cases hfp : findPath sp S with
    | none => rw [hfp] at hr; exact absurd hr (by simp)
    | some p =>
      simp only [resolveGT]
      rw [hfp]
  | hn cs ih =>
    intro hbin hev
    simp only [gBinary, Bool.and_eq_true, decide_eq_true_eq] at hbin
    obtain ⟨r, hr⟩ := hev
    simp only [evalC] at hr
    cases hEL : evalCL S cs with
    | error e => rw [hEL] at hr; exact absurd hr (by simp)
    | ok rs =>
      have hall : ∀ c ∈ cs, resolveGT S c = .ok c := fun c hc =>
        ih c hc (gBinaryL_mem hbin.2 hc) (evalCL_ok_mem hEL hc)
      simp only [resolveGT]
      rw [resolveGTL_id hall]
      simp [hbin.1]


/-- C3: on a gene tree with no node of more than two children, and whose
mapping succeeds, the resolver returns the input tree structurally
unchanged together with its as-computed reconciliation cost. -/
theorem resolver_id_on_binary (S : STree) (g : GTree) (hbin : gBinary g = true)
    {p : List Nat} {d l : Nat} (hev : evalC S g = .ok (p, d, l)) :
    resolveWithCost S g = .ok (g, d, l) := by
  have hid := resolveGT_id g hbin ⟨(p, d, l), hev⟩
  simp only [resolveWithCost, hid, hev]


/-- Witness for C3 on a concrete binary gene tree. -/
theorem resolver_id_on_binary_witness :
    gBinary (GTree.node [.leaf 0, .leaf 1]) = true ∧
    evalC (STree.node [.leaf 0, .leaf 1]) (GTree.node [.leaf 0, .leaf 1]) =
      .ok ([], 0, 0) ∧
    resolveWithCost (STree.node [.leaf 0, .leaf 1]) (GTree.node [.leaf 0, .leaf 1]) =
      .ok (GTree.node [.leaf 0, .leaf 1], 0, 0) :=
  ⟨rfl, rfl,
    resolver_id_on_binary (STree.node [.leaf 0, .leaf 1])
      (GTree.node [.leaf 0, .leaf 1]) rfl rfl⟩


/-- C4: the worked example (spec §8): gene tree ((A,B,C),D) against species
tree ((A,B),(C,D)), with A=0, B=1, C=2, D=3. The resolver's chosen
refinement of the polytomy is the unordered topology ((A,B),C) — it groups
A and B first — the returned total reconciliation cost is exactly
1 duplication and 0 losses, and the winning refinement's induced cost is
strictly below that of (A,(B,C)) and of (B,(A,C)). -/
theorem resolver_example_groups_AB :
    resolveWithCost (.node [.node [.leaf 0, .leaf 1], .node [.leaf 2, .leaf 3]])
        (.node [.node [.leaf 0, .leaf 1, .leaf 2], .leaf 3]) =
      .ok (.node [.node [.leaf 2, .node [.leaf 1, .leaf 0]], .leaf 3], 1, 0) ∧
    resolvePoly (fun i => [[0, 0], [0, 1], [1, 0]].getD i []) (enum 3) =
      some (.nd (.lf 2) (.nd (.lf 1) (.lf 0))) ∧
    uEq (.nd (.lf 2) (.nd (.lf 1) (.lf 0))) (.nd (.nd (.lf 0) (.lf 1)) (.lf 2)) = true ∧
    candCost (fun i => [[0, 0], [0, 1], [1, 0]].getD i [])
        (.nd (.nd (.lf 0) (.lf 1)) (.lf 2)) <
      candCost (fun i => [[0, 0], [0, 1], [1, 0]].getD i [])
        (.nd (.lf 0) (.nd (.lf 1) (.lf 2))) ∧
    candCost (fun i => [[0, 0], [0, 1], [1, 0]].getD i [])
        (.nd (.nd (.lf 0) (.lf 1)) (.lf 2)) <
      candCost (fun i => [[0, 0], [0, 1], [1, 0]].getD i [])
        (.nd (.lf 1) (.nd (.lf 0) (.lf 2))) :=
  ⟨rfl, rfl, rfl, by decide, by decide⟩


/-- C9: with no `README` file present the setup script does not fail:
`README` is bound to the empty string and `long_description` is exactly the
one-character string `"\n"`; with the file present, `long_description` is
its contents followed by `"\n"`. -/
theorem setup_readme_fallback :
    readmeValue none = "" ∧
    longDescription none = "\n" ∧ (longDescription none).length = 1 ∧
    ∀ contents, longDescription (some contents) = contents ++ "\n" :=
  ⟨rfl, rfl, rfl, fun _ => rfl⟩


/-- C10: because the local `python` directory is inserted at position 0 of
`sys.path` before the import, the name and version passed to
`setuptools.setup` are exactly the local PolytomySolver package's
`__project__` and `__version__`, shadowing any installed package of the
same name anywhere else on `sys.path`. -/
theorem setup_uses_local_package (provides : String → Option PkgMeta)
    (pythonDir : String) (sysPath : List String) (m : PkgMeta)
    (hlocal : provides pythonDir = some m) :
    setupNameVersion provides pythonDir sysPath = some (m.project, m.version) := by
  simp only [setupNameVersion, sysPathInsert0, importPkg, hlocal]


/-- Witness for C10: the local directory provides profileNJ 1.0 while every
other directory (including an installed site-packages copy) provides a
different package; the local one is used. -/
theorem setup_uses_local_package_witness :
    (fun d => if d = "repo/python" then some (PkgMeta.mk "profileNJ" "1.0")
      else some (PkgMeta.mk "other" "9.9")) "repo/python" =
        some (PkgMeta.mk "profileNJ" "1.0") ∧
    setupNameVersion
        (fun d => if d = "repo/python" then some (PkgMeta.mk "profileNJ" "1.0")
          else some (PkgMeta.mk "other" "9.9"))
        "repo/python" ["site-packages"] = some ("profileNJ", "1.0") :=
  ⟨rfl,
    setup_uses_local_package
      (fun d => if d = "repo/python" then some (PkgMeta.mk "profileNJ" "1.0")
        else some (PkgMeta.mk "other" "9.9"))
      "repo/python" ["site-packages"] (PkgMeta.mk "profileNJ" "1.0") rfl⟩
